import Mathlib

/-
  Verification of the sudoku_solver repository (src/main.rs).

  The program is a 9x9 sudoku front-end over an external SMT solver:
  an interactive grid editor (`SudokuInput`), a board type (`Puzzle`)
  keyed by two-character strings (column letter 'a'..'i' followed by the
  row digit '0'..'8'), a piped-mode text parser (`_parse`, built from nom
  combinators), and `Puzzle::solve`, which encodes the board as integer
  constraints, calls the solver once, and writes a satisfying model back
  into the board.

  Everything below is a shallow embedding of that source: pure Rust
  functions become Lean functions, the nom combinators are modelled by
  explicit option-returning parsers on `List Char`, and the z3 calls are
  modelled by an abstract ternary result together with the list of
  assertions `solve` would issue.
-/

set_option maxHeartbeats 2000000
set_option maxRecDepth 16384

namespace SudokuSolver

/-! ### Cell addressing

The source repeats a nine-way `match i { 0 => 'a', ..., 8 => 'i', _ => panic }`
at every key-construction site (`_parse`, `Puzzle::fmt`, `Puzzle::from_array`,
`Puzzle::solve`), pairing the column letter with the row index formatted as a
decimal digit (`format!("{}{j}")`, or `(b'0' + j as u8) as char` in
`from_array`); for row indices 0..8 both render as the single character
`'0' + j`. -/

def colLetter : Nat → Char
  | 0 => 'a'
  | 1 => 'b'
  | 2 => 'c'
  | 3 => 'd'
  | 4 => 'e'
  | 5 => 'f'
  | 6 => 'g'
  | 7 => 'h'
  | 8 => 'i'
  | _ => '!'   -- the source panics with "more than 9 columns"; unreachable for i < 9

def rowDigit (j : Nat) : Char := Char.ofNat (48 + j)

def keyOf (i j : Nat) : String := String.mk [colLetter i, rowDigit j]

/-- The 81 valid cell keys, row-major: "a0", "b0", ..., "i8". -/
def cellKeys : List String :=
  (List.range 9).flatMap fun j => (List.range 9).map fun i => keyOf i j

/-- Modelled from the spec: `decode(key) -> (col, row)`, the exact inverse of
the column-letter/row-digit key mapping. The source only ever builds keys and
never parses one back, so no decode function exists in src; this definition
follows the description of the addressing scheme in the spec. -/
def decodeKey (s : String) : Option (Nat × Nat) :=
  match s.data with
  | [c, r] =>
    if 'a' ≤ c ∧ c ≤ 'i' ∧ '0' ≤ r ∧ r ≤ '8' then
      some (c.toNat - 97, r.toNat - 48)
    else none
  | _ => none

/-! ### Editor cursor and grid (`SudokuInput`) -/

/-- Model of `SudokuInput::move_cursor`: each coordinate becomes
`(coord as i32 + delta).rem_euclid(9) as usize`; `rem_euclid` on integers is
Euclidean remainder, i.e. `Int.emod` with positive modulus. -/
def move_cursor (cursor_row cursor_col : Nat) (dr dc : Int) : Nat × Nat :=
  ((((cursor_row : Int) + dr).emod 9).toNat, (((cursor_col : Int) + dc).emod 9).toNat)

/-- The four cardinal unit deltas passed to `move_cursor` by the key handler:
up, down, left, right. -/
def cardinalDeltas : List (Int × Int) := [(-1, 0), (1, 0), (0, -1), (0, 1)]

/-- Iterating a single-direction move `n` times. -/
def iterMove (d : Int × Int) : Nat → Nat × Nat → Nat × Nat
  | 0, p => p
  | n + 1, p => iterMove d n (move_cursor p.1 p.2 d.1 d.2)

/-- Model of `SudokuInput::to_array`: each cell of the editor grid (`Option<u8>`,
indexed row-then-column) becomes `grid[row][col].unwrap_or(0)`. -/
def to_array (grid : Fin 9 → Fin 9 → Option Nat) (row col : Fin 9) : Nat :=
  (grid row col).getD 0

/-! ### The board (`Puzzle`)

`Puzzle` holds `data: BTreeMap<String, Option<u8>>` and
`initial_cells: HashSet<String>`. We model the map as an association list
(looked up with `List.lookup`; construction sites below produce pairwise
distinct keys, matching the map) and the set as a list of keys. -/

structure Puzzle where
  data : List (String × Option Nat)
  initial_cells : List String
deriving DecidableEq

/-- The value stored by `Puzzle::from_array` for one input byte:
`match value { 1..=9 => Some(*value), _ => None }`. -/
def cellVal (value : Nat) : Option Nat :=
  if 1 ≤ value ∧ value ≤ 9 then some value else none

/-- Model of `Puzzle::from_array`: iterates the 9x9 input row-by-row (`j` the row
index, `i` the column index), mapping cell `(i, j)` to key `keyOf i j`;
`initial_cells` keeps exactly the keys whose input byte matches `1..=9`. -/
def from_array (a : Fin 9 → Fin 9 → Nat) : Puzzle where
  data := (List.finRange 9).flatMap fun j : Fin 9 =>
    (List.finRange 9).map fun i : Fin 9 => (keyOf i.1 j.1, cellVal (a j i))
  initial_cells := (List.finRange 9).flatMap fun j : Fin 9 =>
    (List.finRange 9).filterMap fun i : Fin 9 =>
      if 1 ≤ a j i ∧ a j i ≤ 9 then some (keyOf i.1 j.1) else none

/-! ### The piped-mode parser (`_parse`)

The source parses with nom:
`all_consuming((separated_list1(line_ending, count(take(1usize), 9)), opt(line_ending)))`
followed by `assert!(rows.len() == 9)`, a per-row `assert!(row.len() == 9)`
and a per-cell `assert!(s.len() == 1)` (a BYTE-length check), then
builds the `data` map by enumerating rows (`j`) and cells (`i`), and sets
`initial_cells` to ALL keys of the map (`data.keys().cloned().collect()`).

We model each combinator on `List Char`:
`take(1)` consumes any single character (also a line terminator!),
`line_ending` consumes "\n" or "\r\n", `separated_list1` loops
sep-then-element with single-step backtracking, `opt` never fails, and
`all_consuming` demands an empty remainder. A failed `assert!` (a panic) is
distinguished from a nom error in the result type. -/

/-- Model of `count(take(1usize), n)`: consume the next `n` characters, whatever they
are; fail only when fewer than `n` remain. -/
def pTakeN : Nat → List Char → Option (List Char × List Char)
  | 0, input => some (input, [])
  | _ + 1, [] => none
  | n + 1, c :: rest =>
    match pTakeN n rest with
    | none => none
    | some (rem, cs) => some (rem, c :: cs)

/-- nom `line_ending`: consume "\n" or "\r\n". -/
def pLineEnding : List Char → Option (List Char)
  | '\n' :: rest => some rest
  | '\r' :: '\n' :: rest => some rest
  | _ => none

/-- The loop of `separated_list1(line_ending, count(take(1), 9))` after the
first element: repeatedly try separator then element; on either failure,
rewind to the state before the separator and stop. Fueled by the input
length (each iteration consumes at least one character). -/
def sepListAux : Nat → List Char → List (List Char) → List Char × List (List Char)
  | 0, input, acc => (input, acc.reverse)
  | fuel + 1, input, acc =>
    match pLineEnding input with
    | none => (input, acc.reverse)
    | some rest =>
      match pTakeN 9 rest with
      | none => (input, acc.reverse)
      | some (rest2, row) => sepListAux fuel rest2 (row :: acc)

/-- Model of `separated_list1(line_ending, count(take(1), 9))`. -/
def parseRows (input : List Char) : Option (List Char × List (List Char)) :=
  match pTakeN 9 input with
  | none => none
  | some (rest, row) => some (sepListAux rest.length rest [row])

/-- The cell value read by `_parse` from one character:
`'1'..='9' => Some(digit)`, anything else empty. -/
def charVal (ch : Char) : Option Nat :=
  if '1' ≤ ch ∧ ch ≤ '9' then some (ch.toNat - 48) else none

/-- One parsed row, enumerated with column index `i` (mirrors
`row.iter().enumerate()` in `_parse`). -/
def rowData (j : Nat) : Nat → List Char → List (String × Option Nat)
  | _, [] => []
  | i, ch :: rest => (keyOf i j, charVal ch) :: rowData j (i + 1) rest

/-- All parsed rows, enumerated with row index `j` (mirrors
`rows.iter().enumerate().flat_map(..)` in `_parse`). -/
def gridData : Nat → List (List Char) → List (String × Option Nat)
  | _, [] => []
  | j, row :: rest => rowData j 0 row ++ gridData (j + 1) rest

/-- The puzzle `_parse` returns: `data` from the rows, and `initial_cells`
taken from ALL keys of `data` (`data.keys().cloned().collect()`), empty
cells included. -/
def mkPuzzle (rows : List (List Char)) : Puzzle :=
  { data := gridData 0 rows
    initial_cells := (gridData 0 rows).map Prod.fst }

inductive ParseResult where
  | ok (p : Puzzle)
  | err
  | panicked
deriving DecidableEq

def ParseResult.isOk : ParseResult → Bool
  | .ok _ => true
  | _ => false

/-- The per-row asserts of `_parse`: `assert!(row.len() == 9)` and, per cell,
`assert!(s.len() == 1)`. The slice taken by `take(1)` holds one char, and
`s.len()` is its BYTE length, so the second assert panics exactly when the
character occupies more than one UTF-8 byte. -/
def rowAsserts (row : List Char) : Bool :=
  row.length == 9 && row.all fun ch => ch.utf8Size == 1

/-- The tail of `_parse` after the nom parse succeeds: `opt(line_ending)`,
the `all_consuming` emptiness check (a nom error), then the three `assert!`
checks — row count, row length, per-cell byte length (a panic) — then the
puzzle construction. -/
def checkParsed (rest : List Char) (rows : List (List Char)) : ParseResult :=
  let rest1 := match pLineEnding rest with
    | some r => r
    | none => rest
  if rest1 ≠ [] then .err
  else if rows.length = 9 ∧ rows.all rowAsserts then .ok (mkPuzzle rows)
  else .panicked

def _parse (input : List Char) : ParseResult :=
  match parseRows input with
  | none => .err
  | some (rest, rows) => checkParsed rest rows

/-- Textual lines of an input: split at each "\n" or "\r\n". Used only to
state which inputs have lines of the wrong length. -/
def splitLines : List Char → List (List Char)
  | [] => [[]]
  | '\n' :: rest => [] :: splitLines rest
  | '\r' :: '\n' :: rest => [] :: splitLines rest
  | c :: rest =>
    match splitLines rest with
    | [] => [[c]]
    | l :: ls => (c :: l) :: ls

/-! ### The constraint encoding and the solve step (`Puzzle::solve`)

`solve` creates one fresh z3 integer per key of the literal list below
(lines 418-498 of the source insert exactly these 81 keys), asserts
`1 <= v <= 9` for each variable, `distinct` for the nine rows, nine
columns and nine boxes, and `v = value` for every `Some` entry of
`self.data` whose key is among the variables. We record the assertions as
a list of `Constraint`s; iteration orders of the Rust `HashMap`/`BTreeMap`
are unspecified, so statements below only use the collection of
assertions, never their order. -/

inductive Constraint where
  | ge (k : String) (n : Nat)
  | le (k : String) (n : Nat)
  | distinct (ks : List String)
  | eqc (k : String) (n : Nat)
deriving DecidableEq

/-- The 81 keys inserted into `int_vars`, in source order. -/
def intVarKeys : List String :=
  ["a0", "a1", "a2", "a3", "a4", "a5", "a6", "a7", "a8",
   "b0", "b1", "b2", "b3", "b4", "b5", "b6", "b7", "b8",
   "c0", "c1", "c2", "c3", "c4", "c5", "c6", "c7", "c8",
   "d0", "d1", "d2", "d3", "d4", "d5", "d6", "d7", "d8",
   "e0", "e1", "e2", "e3", "e4", "e5", "e6", "e7", "e8",
   "f0", "f1", "f2", "f3", "f4", "f5", "f6", "f7", "f8",
   "g0", "g1", "g2", "g3", "g4", "g5", "g6", "g7", "g8",
   "h0", "h1", "h2", "h3", "h4", "h5", "h6", "h7", "h8",
   "i0", "i1", "i2", "i3", "i4", "i5", "i6", "i7", "i8"]

/-- Model of `solver.assert(v.ge(1)); solver.assert(v.le(9))` for every variable. -/
def domainConstraints : List Constraint :=
  intVarKeys.flatMap fun k => [.ge k 1, .le k 9]

/-- One `Int::distinct` per row: for `row` in 0..9, the variables at
`keyOf col row` for `col` in 0..9. -/
def rowConstraints : List Constraint :=
  (List.range 9).map fun row => .distinct ((List.range 9).map fun col => keyOf col row)

/-- One `Int::distinct` per column. -/
def colConstraints : List Constraint :=
  (List.range 9).map fun col => .distinct ((List.range 9).map fun row => keyOf col row)

/-- One `Int::distinct` per 3x3 box: box `(box_row, box_col)` collects the
variables at column `box_col * 3 + col`, row `box_row * 3 + row`. -/
def boxConstraints : List Constraint :=
  (List.range 3).flatMap fun box_row =>
    (List.range 3).map fun box_col =>
      Constraint.distinct ((List.range 3).flatMap fun row =>
        (List.range 3).map fun col => keyOf (box_col * 3 + col) (box_row * 3 + row))

/-- The clue equalities: for each `(key, Some(v))` entry of `self.data`
whose key is in `int_vars`, assert `var = v`. `initial_cells` is never
consulted. -/
def eqConstraints (data : List (String × Option Nat)) : List Constraint :=
  data.filterMap fun kv =>
    match kv.2 with
    | some v => if kv.1 ∈ intVarKeys then some (.eqc kv.1 v) else none
    | none => none

/-- Every assertion issued by one `solve` call before `solver.check()`. -/
def encode (p : Puzzle) : List Constraint :=
  domainConstraints ++ rowConstraints ++ colConstraints ++ boxConstraints ++
    eqConstraints p.data

/-- Ternary verdict of the external solver; on `sat`, z3 also hands back a
model assigning an integer to every variable (looked up here by key). -/
inductive SatResult where
  | sat (model : String → Int)
  | unsat
  | unknown

/-- Model of `model.eval(..).as_i64().unwrap() as u8`: the low byte of the model
value. -/
def asU8 (x : Int) : Nat := (x.emod 256).toNat

/-- Model of `self.data.entry(key).and_modify(|e| *e = Some(value))`: overwrite the
value at an existing key, insert nothing. -/
def updateCell (data : List (String × Option Nat)) (k : String) (v : Nat) :
    List (String × Option Nat) :=
  data.map fun kv => if kv.1 = k then (kv.1, some v) else kv

/-- The `Sat` branch of `solve`: for every key of `int_vars`, write the
model value into the board. The `HashMap` iteration order is unspecified;
since each key is visited once and the keys are distinct, the resulting
map does not depend on it, and we fix insertion order. -/
def decodeModel (model : String → Int) (data : List (String × Option Nat)) :
    List (String × Option Nat) :=
  intVarKeys.foldl (fun d k => updateCell d k (asU8 (model k))) data

/-- Model of `Puzzle::solve` from `solver.check()` on: the board update and the
diagnostic line printed on failure (`Sat` prints the solved board
instead, modelled as `none`). -/
def solve (p : Puzzle) (res : SatResult) : Puzzle × Option String :=
  match res with
  | .sat model => ({ p with data := decodeModel model p.data }, none)
  | .unsat => (p, some "No solution found")
  | .unknown => (p, some "Solver returned unknown")

/-! ### Helper lemmas -/

/-- Association-list lookup finds a member entry when keys are pairwise
distinct (the `BTreeMap` invariant at every construction site). -/
theorem lookup_eq_of_mem {β : Type} :
    ∀ (l : List (String × β)) (a : String) (b : β),
      (l.map Prod.fst).Nodup → (a, b) ∈ l → l.lookup a = some b
  | [], _, _, _, hm => by simp at hm
  | (k, v) :: t, a, b, hnd, hm => by
    simp only [List.map_cons, List.nodup_cons] at hnd
    rcases List.mem_cons.1 hm with h | h
    · rw [Prod.mk.injEq] at h
      obtain ⟨rfl, rfl⟩ := h
      simp [List.lookup]
    · have hne : (a == k) = false := by
        refine beq_eq_false_iff_ne.2 fun hak => ?_
        exact hnd.1 (hak ▸ List.mem_map_of_mem Prod.fst h)
      simp only [List.lookup, hne]
      exact lookup_eq_of_mem t a b hnd.2 h

theorem from_array_keys (a : Fin 9 → Fin 9 → Nat) :
    (from_array a).data.map Prod.fst = cellKeys := rfl

theorem from_array_mem (a : Fin 9 → Fin 9 → Nat) (i j : Fin 9) :
    (keyOf i j, cellVal (a j i)) ∈ (from_array a).data := by
  unfold from_array
  refine List.mem_flatMap.2 ⟨j, List.mem_finRange j, ?_⟩
  exact List.mem_map.2 ⟨i, List.mem_finRange i, rfl⟩

theorem cellKeys_nodup : cellKeys.Nodup := by decide

theorem from_array_lookup (a : Fin 9 → Fin 9 → Nat) (i j : Fin 9) :
    (from_array a).data.lookup (keyOf i j) = some (cellVal (a j i)) :=
  lookup_eq_of_mem _ _ _ (from_array_keys a ▸ cellKeys_nodup) (from_array_mem a i j)

/-! ### C6, C7, C3, C9, C8 -/

/-- C6: the cell-key mapping is a bijection over the 81 cells: for every
(col, row) in 0..8 x 0..8 the key (column letter followed by row digit)
decodes back to exactly that (col, row), and the 81 generated keys are
pairwise distinct. (`decodeKey` is modelled from the spec; the source only
builds keys.) -/
theorem key_mapping_bijective :
    (∀ i j : Fin 9, decodeKey (keyOf i j) = some (i.1, j.1)) ∧ cellKeys.Nodup := by
  decide

/-- C7: every cardinal unit move sends `(row, col)` to
`((row + dr) mod 9, (col + dc) mod 9)` (Euclidean remainder); moving right
from column 8 yields column 0 with the row unchanged, moving up from row 0
yields row 8 with the column unchanged, nine repetitions of any one move
return to the start, and both coordinates stay within 0..8. -/
theorem move_cursor_wraps (r c : Fin 9) (d : Int × Int) (hd : d ∈ cardinalDeltas) :
    move_cursor r c d.1 d.2 =
      ((((r : Int) + d.1).emod 9).toNat, (((c : Int) + d.2).emod 9).toNat) ∧
    move_cursor r 8 0 1 = ((r : Nat), 0) ∧
    move_cursor 0 c (-1) 0 = (8, (c : Nat)) ∧
    iterMove d 9 ((r : Nat), (c : Nat)) = ((r : Nat), (c : Nat)) ∧
    (move_cursor r c d.1 d.2).1 < 9 ∧ (move_cursor r c d.1 d.2).2 < 9 := by
  revert hd
  revert r c d
  decide

theorem move_cursor_wraps_witness :
    move_cursor 4 7 0 1 =
      (((((4 : Fin 9) : Int) + 0).emod 9).toNat, ((((7 : Fin 9) : Int) + 1).emod 9).toNat) ∧
    move_cursor 4 8 0 1 = (4, 0) ∧
    move_cursor 0 7 (-1) 0 = (8, 7) ∧
    iterMove (0, 1) 9 (4, 7) = (4, 7) ∧
    (move_cursor 4 7 0 1).1 < 9 ∧ (move_cursor 4 7 0 1).2 < 9 :=
  move_cursor_wraps 4 7 (0, 1) (by decide)

/-- C3: on `Unsat` or `Unknown` the board is returned exactly as it was and
the respective diagnostic is printed. -/
theorem solve_failure_frame (p : Puzzle) :
    solve p SatResult.unsat = (p, some "No solution found") ∧
    solve p SatResult.unknown = (p, some "Solver returned unknown") :=
  ⟨rfl, rfl⟩

/-- C9: `solve` never touches `initial_cells`, whatever the solver verdict:
only `data` is rewritten in the `Sat` branch. -/
theorem solve_preserves_initial_cells (p : Puzzle) (res : SatResult) :
    (solve p res).1.initial_cells = p.initial_cells := by
  cases res <;> simp [solve]

/-- C8: `from_array` builds exactly 81 entries, one per valid cell key
(pairwise distinct), and the entry for cell (col i, row j) holds the input
byte when it lies in 1..=9 and is empty otherwise. -/
theorem from_array_shape (a : Fin 9 → Fin 9 → Nat) :
    (from_array a).data.length = 81 ∧
    (from_array a).data.map Prod.fst = cellKeys ∧
    cellKeys.Nodup ∧
    ∀ i j : Fin 9, (from_array a).data.lookup (keyOf i j) =
      some (if 1 ≤ a j i ∧ a j i ≤ 9 then some (a j i) else none) := by
  refine ⟨?_, from_array_keys a, cellKeys_nodup, fun i j => from_array_lookup a i j⟩
  have h := congrArg List.length (from_array_keys a)
  rw [List.length_map] at h
  exact h.trans (by decide)

/-! ### Lemmas about the Sat write-back -/

theorem intVarKeys_nodup : intVarKeys.Nodup := by decide

theorem lookup_cons {β : Type} (a k : String) (v : β) (t : List (String × β)) :
    List.lookup a ((k, v) :: t) = if a == k then some v else List.lookup a t := by
  cases h : a == k <;> simp [List.lookup, h]

theorem updateCell_cons (k0 : String) (v0 : Option Nat) (t : List (String × Option Nat))
    (k : String) (v : Nat) :
    updateCell ((k0, v0) :: t) k v =
      (if k0 = k then (k0, some v) else (k0, v0)) :: updateCell t k v := by
  by_cases h : k0 = k <;> simp [updateCell, h]

theorem updateCell_keys (d : List (String × Option Nat)) (k : String) (v : Nat) :
    (updateCell d k v).map Prod.fst = d.map Prod.fst := by
  induction d with
  | nil => rfl
  | cons kv t ih =>
    obtain ⟨k0, v0⟩ := kv
    rw [updateCell_cons]
    by_cases h : k0 = k <;> simp [h, ih]

theorem updateCell_lookup_other (d : List (String × Option Nat)) (k k2 : String) (v : Nat)
    (h : k2 ≠ k) : (updateCell d k v).lookup k2 = d.lookup k2 := by
  induction d with
  | nil => rfl
  | cons kv t ih =>
    obtain ⟨k0, v0⟩ := kv
    rw [updateCell_cons]
    by_cases hk : k0 = k
    · subst hk
      have hne : (k2 == k0) = false := beq_eq_false_iff_ne.2 h
      rw [if_pos rfl, lookup_cons, lookup_cons, hne]
      simp only [Bool.false_eq_true, if_false]
      exact ih
    · rw [if_neg hk, lookup_cons, lookup_cons]
      cases h2 : k2 == k0
      · simp only [Bool.false_eq_true, if_false]
        exact ih
      · rfl

theorem updateCell_lookup_self (d : List (String × Option Nat)) (k : String) (v : Nat)
    (hnd : (d.map Prod.fst).Nodup) (hmem : k ∈ d.map Prod.fst) :
    (updateCell d k v).lookup k = some (some v) := by
  induction d with
  | nil => simp at hmem
  | cons kv t ih =>
    obtain ⟨k0, v0⟩ := kv
    rw [updateCell_cons]
    simp only [List.map_cons, List.nodup_cons] at hnd hmem
    rcases List.mem_cons.1 hmem with h | h
    · subst h
      simp [lookup_cons]
    · have hne : k ≠ k0 := fun e => hnd.1 (e ▸ h)
      have hne2 : (k == k0) = false := beq_eq_false_iff_ne.2 hne
      by_cases hk : k0 = k
      · exact absurd hk.symm hne
      · rw [if_neg hk, lookup_cons, hne2]
        simp only [Bool.false_eq_true, if_false]
        exact ih hnd.2 h

theorem foldl_update_keys (f : String → Nat) (ks : List String) :
    ∀ d : List (String × Option Nat),
      ((ks.foldl (fun d k2 => updateCell d k2 (f k2)) d).map Prod.fst) = d.map Prod.fst := by
  induction ks with
  | nil => intro d; rfl
  | cons k0 rest ih =>
    intro d
    rw [List.foldl_cons, ih, updateCell_keys]

theorem foldl_update_lookup_notin (f : String → Nat) (ks : List String) :
    ∀ (d : List (String × Option Nat)) (k : String), k ∉ ks →
      (ks.foldl (fun d k2 => updateCell d k2 (f k2)) d).lookup k = d.lookup k := by
  induction ks with
  | nil => intro d k _; rfl
  | cons k0 rest ih =>
    intro d k hk
    rw [List.foldl_cons]
    have h1 : k ∉ rest := fun h => hk (List.mem_cons_of_mem _ h)
    have h2 : k ≠ k0 := fun h => hk (h ▸ List.mem_cons_self k0 rest)
    rw [ih _ k h1, updateCell_lookup_other _ _ _ _ h2]

theorem foldl_update_lookup_mem (f : String → Nat) (ks : List String) :
    ∀ (d : List (String × Option Nat)) (k : String), ks.Nodup → (d.map Prod.fst).Nodup →
      k ∈ ks → k ∈ d.map Prod.fst →
      (ks.foldl (fun d k2 => updateCell d k2 (f k2)) d).lookup k = some (some (f k)) := by
  induction ks with
  | nil => intro d k _ _ h _; simp at h
  | cons k0 rest ih =>
    intro d k hndks hndd hmem hkey
    rw [List.foldl_cons]
    rcases List.mem_cons.1 hmem with h | h
    · subst h
      rw [foldl_update_lookup_notin f rest _ k (List.nodup_cons.1 hndks).1]
      exact updateCell_lookup_self d k (f k) hndd hkey
    · exact ih (updateCell d k0 (f k0)) k (List.nodup_cons.1 hndks).2
        (by rw [updateCell_keys]; exact hndd) h (by rw [updateCell_keys]; exact hkey)

/-! ### C2 and C10 -/

/-- A concrete all-empty board built by `from_array`, used as sample input. -/
def p0 : Puzzle := from_array fun _ _ => 0

/-- A concrete solver model assigning 5 to every variable. -/
def m0 : String → Int := fun _ => 5

/-- C2: when the check returns `Sat`, `solve` overwrites the entry of every
one of the 81 cell keys with the model value of that key (the key set of
the board being the 81 keys, as both constructors guarantee, and the model
satisfying the asserted domain bounds 1..9, as a `Sat` model must), so
afterwards every entry of the board is non-empty. -/
theorem solve_sat_fills_board (p : Puzzle) (model : String → Int)
    (hkeys : List.Perm (p.data.map Prod.fst) intVarKeys)
    (hmodel : ∀ k, 1 ≤ model k ∧ model k ≤ 9) :
    (∀ k ∈ intVarKeys,
      (solve p (SatResult.sat model)).1.data.lookup k = some (some (model k).toNat)) ∧
    ∀ kv ∈ (solve p (SatResult.sat model)).1.data, kv.2.isSome := by
  have hdata : (solve p (SatResult.sat model)).1.data = decodeModel model p.data := by
    simp [solve]
  have hnd : (p.data.map Prod.fst).Nodup := hkeys.nodup_iff.2 intVarKeys_nodup
  have hval : ∀ k, asU8 (model k) = (model k).toNat := by
    intro k
    obtain ⟨h1, h2⟩ := hmodel k
    have he : asU8 (model k) = (model k % 256).toNat := rfl
    rw [he]
    omega
  have hmain : ∀ k ∈ intVarKeys,
      (solve p (SatResult.sat model)).1.data.lookup k = some (some (model k).toNat) := by
    intro k hk
    rw [hdata]
    unfold decodeModel
    rw [foldl_update_lookup_mem (fun k2 => asU8 (model k2)) intVarKeys p.data k
      intVarKeys_nodup hnd hk (hkeys.mem_iff.2 hk), hval]
  refine ⟨hmain, fun kv hkv => ?_⟩
  have hk1 : kv.1 ∈ intVarKeys := by
    have h1 : kv.1 ∈ (decodeModel model p.data).map Prod.fst :=
      List.mem_map_of_mem Prod.fst (hdata ▸ hkv)
    rw [decodeModel, foldl_update_keys] at h1
    exact hkeys.mem_iff.1 h1
  have hnd2 : ((solve p (SatResult.sat model)).1.data.map Prod.fst).Nodup := by
    rw [hdata, decodeModel, foldl_update_keys]
    exact hnd
  have hlook : (solve p (SatResult.sat model)).1.data.lookup kv.1 = some kv.2 :=
    lookup_eq_of_mem _ _ _ hnd2 hkv
  rw [hmain kv.1 hk1] at hlook
  simp only [Option.some.injEq] at hlook
  rw [← hlook]
  rfl

theorem solve_sat_fills_board_witness :
    (∀ k ∈ intVarKeys,
      (solve p0 (SatResult.sat m0)).1.data.lookup k = some (some (m0 k).toNat)) ∧
    ∀ kv ∈ (solve p0 (SatResult.sat m0)).1.data, kv.2.isSome :=
  solve_sat_fills_board p0 m0 (by decide) fun k => ⟨by norm_num [m0], by norm_num [m0]⟩

/-- A concrete editor grid with a single 5 at the top-left cell. -/
def g0 : Fin 9 → Fin 9 → Option Nat := fun r c => if r = 0 ∧ c = 0 then some 5 else none

/-- C10: the editor-to-solver handoff is lossless: when every grid cell is
empty or a digit 1..=9, converting the grid with `to_array` (empty becomes
0) and building the puzzle with `from_array` stores exactly the original
cell at key (col i, row j). -/
theorem editor_to_solver_lossless (g : Fin 9 → Fin 9 → Option Nat)
    (hg : ∀ r c : Fin 9, g r c = none ∨ ∃ v, g r c = some v ∧ 1 ≤ v ∧ v ≤ 9)
    (i j : Fin 9) :
    (from_array (to_array g)).data.lookup (keyOf i j) = some (g j i) := by
  rw [from_array_lookup]
  rcases hg j i with h | ⟨v, hv, h1, h9⟩
  · simp [to_array, h, cellVal]
  · simp only [to_array, hv, Option.getD_some, cellVal]
    rw [if_pos ⟨h1, h9⟩]

theorem editor_to_solver_lossless_witness :
    (from_array (to_array g0)).data.lookup (keyOf 0 0) = some (g0 0 0) :=
  editor_to_solver_lossless g0
    (by
      intro r c
      by_cases h : r = 0 ∧ c = 0
      · exact Or.inr ⟨5, by simp [g0, h], by decide, by decide⟩
      · exact Or.inl (by simp [g0, h]))
    0 0

/-! ### C1: the constraint encoding -/

theorem eqc_not_in_domain (k : String) (v : Nat) :
    Constraint.eqc k v ∉ domainConstraints := by
  intro h
  rcases List.mem_flatMap.1 h with ⟨k2, _, hm⟩
  simp at hm

theorem eqc_not_in_rows (k : String) (v : Nat) :
    Constraint.eqc k v ∉ rowConstraints := by
  intro h
  rcases List.mem_map.1 h with ⟨r, _, he⟩
  exact Constraint.noConfusion he

theorem eqc_not_in_cols (k : String) (v : Nat) :
    Constraint.eqc k v ∉ colConstraints := by
  intro h
  rcases List.mem_map.1 h with ⟨c, _, he⟩
  exact Constraint.noConfusion he

theorem eqc_not_in_boxes (k : String) (v : Nat) :
    Constraint.eqc k v ∉ boxConstraints := by
  intro h
  rcases List.mem_flatMap.1 h with ⟨br, _, hm⟩
  rcases List.mem_map.1 hm with ⟨bc, _, he⟩
  exact Constraint.noConfusion he

theorem eqc_mem_eqConstraints (data : List (String × Option Nat)) (k : String) (v : Nat) :
    Constraint.eqc k v ∈ eqConstraints data ↔ k ∈ intVarKeys ∧ (k, some v) ∈ data := by
  constructor
  · intro h
    rcases List.mem_filterMap.1 h with ⟨⟨k1, v1⟩, hkv, hf⟩
    cases v1 with
    | none => exact absurd hf (by simp)
    | some w =>
      dsimp only at hf
      by_cases hin : k1 ∈ intVarKeys
      · rw [if_pos hin] at hf
        simp only [Option.some.injEq, Constraint.eqc.injEq] at hf
        obtain ⟨rfl, rfl⟩ := hf
        exact ⟨hin, hkv⟩
      · rw [if_neg hin] at hf
        exact absurd hf (by simp)
  · rintro ⟨hk, hmem⟩
    exact List.mem_filterMap.2 ⟨(k, some v), hmem, by simp [hk]⟩

/-- C1: one solve call creates exactly one integer variable per each of the
81 cell keys (the key list is duplicate-free, has 81 entries and covers
every generated key), constrains each variable to the domain 1..9, asserts
pairwise distinctness for the 9 rows, the 9 columns and the 9 boxes (box
(br, bc) holding the cells with row index 3 * br + r and column index
3 * bc + c for r, c in 0..2), and asserts an equality for exactly the
non-empty entries of the board map, whether or not the key is clue-marked
(`initial_cells` is never consulted), with no equality for empty cells. -/
theorem encode_builds_constraints (p : Puzzle) :
    (intVarKeys.Nodup ∧ intVarKeys.length = 81 ∧ ∀ i j : Fin 9, keyOf i.1 j.1 ∈ intVarKeys) ∧
    (∀ k ∈ intVarKeys, Constraint.ge k 1 ∈ encode p ∧ Constraint.le k 9 ∈ encode p) ∧
    (∀ row : Fin 9,
      Constraint.distinct ((List.range 9).map fun col => keyOf col row.1) ∈ encode p) ∧
    (∀ col : Fin 9,
      Constraint.distinct ((List.range 9).map fun row => keyOf col.1 row) ∈ encode p) ∧
    (∀ br bc : Fin 3,
      Constraint.distinct ((List.range 3).flatMap fun r =>
        (List.range 3).map fun c => keyOf (3 * bc.1 + c) (3 * br.1 + r)) ∈ encode p) ∧
    (∀ k v, Constraint.eqc k v ∈ encode p ↔ k ∈ intVarKeys ∧ (k, some v) ∈ p.data) := by
  have hd : ∀ k ∈ intVarKeys,
      Constraint.ge k 1 ∈ domainConstraints ∧ Constraint.le k 9 ∈ domainConstraints := by
    decide
  have hr : ∀ row : Fin 9,
      Constraint.distinct ((List.range 9).map fun col => keyOf col row.1) ∈ rowConstraints := by
    decide
  have hc : ∀ col : Fin 9,
      Constraint.distinct ((List.range 9).map fun row => keyOf col.1 row) ∈ colConstraints := by
    decide
  have hb : ∀ br bc : Fin 3,
      Constraint.distinct ((List.range 3).flatMap fun r =>
        (List.range 3).map fun c => keyOf (3 * bc.1 + c) (3 * br.1 + r)) ∈ boxConstraints := by
    decide
  refine ⟨⟨intVarKeys_nodup, by decide, by decide⟩, ?_, ?_, ?_, ?_, ?_⟩
  · intro k hk
    exact ⟨List.mem_append_left _ (List.mem_append_left _ (List.mem_append_left _
        (List.mem_append_left _ ((hd k hk).1)))),
      List.mem_append_left _ (List.mem_append_left _ (List.mem_append_left _
        (List.mem_append_left _ ((hd k hk).2))))⟩
  · intro row
    exact List.mem_append_left _ (List.mem_append_left _ (List.mem_append_left _
      (List.mem_append_right _ (hr row))))
  · intro col
    exact List.mem_append_left _ (List.mem_append_left _ (List.mem_append_right _ (hc col)))
  · intro br bc
    exact List.mem_append_left _ (List.mem_append_right _ (hb br bc))
  · intro k v
    simp only [encode, List.mem_append]
    constructor
    · rintro ((((h | h) | h) | h) | h)
      · exact absurd h (eqc_not_in_domain k v)
      · exact absurd h (eqc_not_in_rows k v)
      · exact absurd h (eqc_not_in_cols k v)
      · exact absurd h (eqc_not_in_boxes k v)
      · exact (eqc_mem_eqConstraints p.data k v).1 h
    · intro h
      exact Or.inr ((eqc_mem_eqConstraints p.data k v).2 h)

theorem encode_builds_constraints_witness :
    Constraint.ge "a0" 1 ∈ encode p0 ∧ Constraint.le "a0" 9 ∈ encode p0 :=
  (encode_builds_constraints p0).2.1 "a0" (by decide)

/-! ### The parser on well-shaped inputs (C5, C4) -/

theorem pTakeN_append : ∀ (n : Nat) (l r : List Char), l.length = n →
    pTakeN n (l ++ r) = some (r, l)
  | 0, [], _, _ => rfl
  | 0, _ :: _, _, h => by simp at h
  | _ + 1, [], _, h => by simp at h
  | n + 1, c :: l, r, h => by
    have ih := pTakeN_append n l r (by simpa using h)
    simp [pTakeN, ih]

theorem sepListAux_run :
    ∀ (ls : List (List Char)) (t : List Char) (acc : List (List Char)) (fuel : Nat),
      (∀ l ∈ ls, l.length = 9) → (t = [] ∨ t = ['\n']) →
      ((ls.flatMap fun l => '\n' :: l) ++ t).length ≤ fuel →
      sepListAux fuel ((ls.flatMap fun l => '\n' :: l) ++ t) acc = (t, acc.reverse ++ ls) := by
  intro ls
  induction ls with
  | nil =>
    intro t acc fuel _ ht hf
    rcases ht with rfl | rfl
    · cases fuel with
      | zero => simp [sepListAux]
      | succ f => simp [sepListAux, pLineEnding]
    · cases fuel with
      | zero => simp at hf
      | succ f => simp [sepListAux, pLineEnding, pTakeN]
  | cons l ls ih =>
    intro t acc fuel hlen ht hf
    have hl9 : l.length = 9 := hlen l (List.mem_cons_self l ls)
    rw [List.flatMap_cons] at hf ⊢
    have hshape : ('\n' :: l) ++ (ls.flatMap fun l2 => '\n' :: l2) ++ t =
        '\n' :: (l ++ ((ls.flatMap fun l2 => '\n' :: l2) ++ t)) := by
      simp
    rw [hshape] at hf ⊢
    cases fuel with
    | zero => simp at hf
    | succ f =>
      have hrow := pTakeN_append 9 l ((ls.flatMap fun l2 => '\n' :: l2) ++ t) hl9
      simp only [sepListAux, pLineEnding, hrow]
      have hfle : ((ls.flatMap fun l2 => '\n' :: l2) ++ t).length ≤ f := by
        simp only [List.length_cons, List.length_append, hl9] at hf ⊢
        omega
      rw [ih t (l :: acc) f (fun l2 hl2 => hlen l2 (List.mem_cons_of_mem _ hl2)) (Or.imp id id ht) hfle]
      simp

theorem parseRows_run (l0 : List Char) (ls : List (List Char)) (t : List Char)
    (hl0 : l0.length = 9) (hlen : ∀ l ∈ ls, l.length = 9) (ht : t = [] ∨ t = ['\n']) :
    parseRows (l0 ++ (ls.flatMap fun l => '\n' :: l) ++ t) = some (t, l0 :: ls) := by
  unfold parseRows
  rw [List.append_assoc, pTakeN_append 9 l0 _ hl0]
  simp only []
  rw [sepListAux_run ls t [l0] _ hlen ht (le_refl _)]
  simp

/-- C5 (amended): the nom grammar reads blocks of 9 arbitrary characters
(line terminators included) separated by line terminators, with an optional
trailing one; the asserts then demand exactly 9 blocks of single-byte
characters (`s.len()` counts bytes, so a multi-byte character panics). So
on an input made of 9 single-byte-character blocks, parsing succeeds
exactly when there are 9 blocks (8 or 10 lines make the assert panic
before any solve), but the textual lines of an accepted input need not
have 9 characters: a block may itself contain a line terminator. -/
theorem parse_shape (l0 : List Char) (ls : List (List Char)) (t : List Char)
    (hlen : ∀ l ∈ l0 :: ls, l.length = 9 ∧ ∀ ch ∈ l, ch.utf8Size = 1)
    (ht : t = [] ∨ t = ['\n']) :
    _parse (l0 ++ (ls.flatMap fun l => '\n' :: l) ++ t) =
      if ls.length + 1 = 9 then ParseResult.ok (mkPuzzle (l0 :: ls))
      else ParseResult.panicked := by
  have hrw := parseRows_run l0 ls t (hlen l0 (List.mem_cons_self l0 ls)).1
    (fun l hl => (hlen l (List.mem_cons_of_mem _ hl)).1) ht
  simp only [_parse, hrw]
  have hall : ((l0 :: ls).all rowAsserts) = true := by
    refine List.all_eq_true.2 fun l hl => ?_
    obtain ⟨h9, hbyte⟩ := hlen l hl
    simp only [rowAsserts, Bool.and_eq_true, beq_iff_eq, List.all_eq_true]
    exact ⟨h9, fun ch hch => hbyte ch hch⟩
  have hrest1 : (match pLineEnding t with | some r => r | none => t) = ([] : List Char) := by
    rcases ht with rfl | rfl <;> rfl
  unfold checkParsed
  rw [hrest1]
  simp only [ne_eq, not_true_eq_false, if_false, hall, and_true, List.length_cons]

theorem parse_shape_witness :
    _parse ("123456789".data ++ ((List.replicate 8 ("123456789".data)).flatMap
        fun l => '\n' :: l) ++ []) =
      if (List.replicate 8 ("123456789".data)).length + 1 = 9 then
        ParseResult.ok (mkPuzzle ("123456789".data :: List.replicate 8 ("123456789".data)))
      else ParseResult.panicked :=
  parse_shape ("123456789".data) (List.replicate 8 ("123456789".data)) []
    (by decide) (Or.inl rfl)

/-- An input whose textual lines have lengths 4, 4, then 9 eight times (10
lines in all): its first 9-character block contains an embedded line
terminator, yet the grammar accepts it. -/
def c5input : List Char :=
  ("1234\n6789\n123456789\n123456789\n123456789\n123456789\n123456789\n123456789\n123456789\n123456789").data

/-- C5 counterexample: an input with 10 textual lines, two of them only 4
characters long, which `_parse` nevertheless accepts. -/
theorem parse_accepts_wrong_lines :
    ((splitLines c5input).any fun l => l.length != 9) = true ∧
    (splitLines c5input).length = 10 ∧
    (_parse c5input).isOk = true := by
  decide

/-- A 9x9 byte grid whose only filled cell is (0,0) = 5. -/
def g5 : Fin 9 → Fin 9 → Nat := fun r c => if r = 0 ∧ c = 0 then 5 else 0

/-- The piped input with a single digit 5 at cell (0,0). -/
def c4input : List Char :=
  ("5........\n.........\n.........\n.........\n.........\n.........\n.........\n.........\n.........").data

/-- The nine rows of `c4input`. -/
def c4rows : List (List Char) :=
  "5........".data :: List.replicate 8 (".........".data)

def clueCount : ParseResult → Option Nat
  | .ok p => some p.initial_cells.length
  | _ => none

def filledCount : ParseResult → Option Nat
  | .ok p => some ((p.data.filter fun kv => kv.2.isSome).length)
  | _ => none

theorem checkParsed_ok (rest : List Char) (rows : List (List Char)) (p : Puzzle)
    (hp : checkParsed rest rows = ParseResult.ok p) : p = mkPuzzle rows := by
  unfold checkParsed at hp
  simp only at hp
  split at hp
  · exact ParseResult.noConfusion hp
  · split at hp
    · cases hp
      rfl
    · exact ParseResult.noConfusion hp

theorem parse_ok_shape (input : List Char) (p : Puzzle)
    (hp : _parse input = ParseResult.ok p) : ∃ rows, p = mkPuzzle rows := by
  unfold _parse at hp
  rcases hrows : parseRows input with _ | ⟨rest, rows⟩
  · rw [hrows] at hp
    exact ParseResult.noConfusion hp
  · rw [hrows] at hp
    exact ⟨rows, checkParsed_ok rest rows p hp⟩

/-- C4 (amended): the array constructor records as clues exactly the keys
of the non-empty input entries — in particular a grid whose only filled
cell is (0,0) = 5 yields exactly the one clue key — but the piped-mode
parser records every key of the board map as a clue, filled or empty. -/
theorem clue_marking (a : Fin 9 → Fin 9 → Nat) (input : List Char) (p : Puzzle)
    (hp : _parse input = ParseResult.ok p) :
    (∀ k, k ∈ (from_array a).initial_cells ↔
      ∃ i j : Fin 9, k = keyOf i.1 j.1 ∧ 1 ≤ a j i ∧ a j i ≤ 9) ∧
    (from_array g5).initial_cells = [keyOf 0 0] ∧
    p.initial_cells = p.data.map Prod.fst := by
  refine ⟨?_, by decide, ?_⟩
  · intro k
    unfold from_array
    simp only [List.mem_flatMap, List.mem_filterMap, List.mem_finRange, true_and]
    constructor
    · rintro ⟨j, i, hif⟩
      by_cases h : 1 ≤ a j i ∧ a j i ≤ 9
      · rw [if_pos h] at hif
        simp only [Option.some.injEq] at hif
        exact ⟨i, j, hif.symm, h.1, h.2⟩
      · rw [if_neg h] at hif
        exact absurd hif (by simp)
    · rintro ⟨i, j, rfl, h1, h9⟩
      exact ⟨j, i, by rw [if_pos ⟨h1, h9⟩]⟩
  · obtain ⟨rows, rfl⟩ := parse_ok_shape input p hp
    rfl

theorem clue_marking_witness :
    (mkPuzzle c4rows).initial_cells = (mkPuzzle c4rows).data.map Prod.fst :=
  (clue_marking (fun _ _ => 0) c4input (mkPuzzle c4rows) (by decide)).2.2

/-- C4 counterexample: parsing a grid with exactly one filled cell yields a
puzzle whose clue set has 81 keys, not 1. -/
theorem parser_marks_all_cells_as_clues :
    filledCount (_parse c4input) = some 1 ∧ clueCount (_parse c4input) = some 81 := by
  decide

end SudokuSolver
